import Mathlib

/-!
Verification of the decimal-base BigInt engine (src/struct/big_int.h, the
active variant). Magnitudes are lists of limbs, least-significant first,
base 1,000,000,000, embedded as `List Nat`. Carry/borrow loops are
translated limb by limb from the source; the out-of-range limb read that
the source's shifted `Add` performs via `memcpy` when the second operand
has fewer than `as` limbs is modelled as the `.oob` error branch. The
recursive `Multiply` is given an explicit fuel parameter (the source
recursion terminates on size, which is not structural); running out of
fuel is the distinct `.fuel` error, so `.oob` unambiguously marks the
out-of-range access.
-/

/-- Limb base of the decimal variant: static constexpr T base = T(1e9). -/
def base : Nat := 1000000000

/-- Value denoted by a limb list, least-significant limb first. -/
def valB (l : List Nat) : Nat := l.foldr (fun d acc => d + base * acc) 0

/-- Error outcomes of the partial multiply embedding. -/
inductive MulErr where
  | fuel : MulErr
  | oob : MulErr
deriving DecidableEq

/-- Carry-propagating limb addition, the loop of the source's
    Add(a, b, al, bl, as) after the initial copy: at step i it adds a[i]
    (if i < al) and b[i + as] (if i + as < bl) into the running carry,
    emits carry mod base and keeps carry / base; after the loop a final
    nonzero carry is appended as one limb. The tail loop handles the
    steps after the first operand is exhausted. -/
def addTail : List Nat → Nat → List Nat
  | [], c => if c = 0 then [] else [c]
  | y :: b, c => ((c + y) % base) :: addTail b ((c + y) / base)

/-- Main carry loop over both operands, structural on the first. -/
def addC : List Nat → List Nat → Nat → List Nat
  | [], b, c => addTail b c
  | x :: a, b, c => ((c + x + b.headD 0) % base) :: addC a b.tail ((c + x + b.headD 0) / base)

/-- Static Add(a, b, al, bl, as): the result vector starts with the lowest
    `as` limbs of b copied by memcpy, then the carry loop runs over a and
    the rest of b. The memcpy reads b[0..as), so when b has fewer than
    `as` limbs the read is out of range: that is the `.oob` branch. -/
def AddMag (a b : List Nat) (as : Nat) : Except MulErr (List Nat) :=
  if as ≤ b.length then .ok (b.take as ++ addC a (b.drop as) 0) else .error .oob

/-- Borrow-propagating limb subtraction, the loop of the source's
    Sub(a, b): iterates over the `al` limbs of a, reading b[i] when
    i < bl and 0 otherwise; a negative running value is fixed up by
    adding base and borrowing from the next limb. -/
def subLimbs : List Nat → List Nat → Int → List Nat
  | [], _, _ => []
  | x :: a, b, c =>
    if c + x < (b.headD 0 : Int) then
      (c + x - b.headD 0 + base).toNat :: subLimbs a b.tail (-1)
    else (c + x - b.headD 0).toNat :: subLimbs a b.tail 0

/-- Removal of all trailing (most-significant) zero limbs, possibly down
    to the empty list: the entry trim loop of Multiply. -/
def effTrim : List Nat → List Nat
  | [] => []
  | x :: xs =>
    match effTrim xs with
    | [] => if x = 0 then [] else [x]
    | r => x :: r

/-- Trailing-zero removal that keeps at least one limb: the
    while (size > 1 and back = 0) pop loop at the end of Sub. -/
def trimKeepOne (l : List Nat) : List Nat :=
  if effTrim l = [] then (if l = [] then [] else [0]) else effTrim l

/-- Static Sub(a, b): borrow loop over a's limbs, then the trim that keeps
    at least one limb. Caller is responsible for a at least b. -/
def SubMag (a b : List Nat) : List Nat := trimKeepOne (subLimbs a b 0)

/-- Single schoolbook row of the base case: multiplies every limb of a by
    the limb d with an int64 accumulator, emitting carry mod base and
    keeping carry / base, then appends a final nonzero carry. -/
def mulRow : List Nat → Nat → Nat → List Nat
  | [], _, c => if c = 0 then [] else [c]
  | x :: a, d, c => ((c + x * d) % base) :: mulRow a d ((c + x * d) / base)

/-- Body of Multiply(a, b, al, bl) after the trim and the swap that makes
    a the longer operand: the zero case, the schoolbook base case for at
    most 2 limbs, the unbalanced split when the short operand fits below
    the split point, and otherwise the three-product Karatsuba
    combination. Recursive calls go through the parameter recF. -/
def mulCore (recF : List Nat → List Nat → Except MulErr (List Nat))
    (a b : List Nat) : Except MulErr (List Nat) :=
  if b.length = 0 then .ok [0]
  else if b.length ≤ 2 then
    if b.length = 1 then .ok (mulRow a (b.headD 0) 0)
    else AddMag (mulRow a (b.tail.headD 0) 0) (mulRow a (b.headD 0) 0) 1
  else
    if b.length ≤ a.length / 2 then
      match recF (a.drop (a.length / 2)) b with
      | .error e => .error e
      | .ok ahbl =>
        match recF (a.take (a.length / 2)) b with
        | .error e => .error e
        | .ok albl => AddMag ahbl albl (a.length / 2)
    else
      match recF (a.drop (a.length / 2)) (b.drop (a.length / 2)) with
      | .error e => .error e
      | .ok phh =>
        match recF (a.take (a.length / 2)) (b.take (a.length / 2)) with
        | .error e => .error e
        | .ok pll =>
          match recF (addC (a.drop (a.length / 2)) (a.take (a.length / 2)) 0)
              (addC (b.drop (a.length / 2)) (b.take (a.length / 2)) 0) with
          | .error e => .error e
          | .ok s =>
            match AddMag (SubMag s (addC phh pll 0)) pll (a.length / 2) with
            | .error e => .error e
            | .ok t2 => AddMag phh t2 (a.length / 2 * 2)

/-- One unfolding of Multiply: trim both operands with the entry loops,
    then swap so the first operand is at least as long, and run the body. -/
def mulStep (recF : List Nat → List Nat → Except MulErr (List Nat))
    (x y : List Nat) : Except MulErr (List Nat) :=
  if (effTrim x).length < (effTrim y).length then mulCore recF (effTrim y) (effTrim x)
  else mulCore recF (effTrim x) (effTrim y)

/-- Fuelled Multiply: the source recursion terminates on operand size;
    here each recursive call consumes one unit of fuel, and exhausted
    fuel is the `.fuel` error, distinct from the `.oob` access error. -/
def MultiplyF : Nat → List Nat → List Nat → Except MulErr (List Nat)
  | 0, _, _ => .error .fuel
  | f + 1, x, y => mulStep (MultiplyF f) x y

/-- Modelled from the spec: the independent schoolbook-only reference
    multiplication (section 8, multiplication-path equivalence), absent
    from the source as code. Each limb of b contributes one
    carry-propagated row of the other operand, rows are combined at
    successive limb shifts, and the result is trimmed to canonical form
    with the zero product rendered as the single limb 0. -/
def mulSchoolRows : List Nat → List Nat → List Nat
  | _, [] => []
  | a, d :: bs => addC (mulRow a d 0) (0 :: mulSchoolRows a bs) 0

/-- Modelled from the spec: canonical wrapper of the schoolbook rows. -/
def mulSchool (a b : List Nat) : List Nat :=
  if effTrim (mulSchoolRows a b) = [] then [0] else effTrim (mulSchoolRows a b)

/-- Sign-magnitude big integer: limb list val plus sign flag sig
    (true means negative, matching the source's int sig holding 0/1). -/
structure BigInt where
  val : List Nat
  sig : Bool
deriving DecidableEq

/-- Member Trim(): pop all trailing zero limbs; if the vector became
    empty, reset the sign and store the single limb 0. -/
def trimBig (x : BigInt) : BigInt :=
  if effTrim x.val = [] then ⟨[0], false⟩ else ⟨effTrim x.val, x.sig⟩

/-- Signed value of a BigInt representation. -/
def valZ (x : BigInt) : Int :=
  if x.sig then -(valB x.val : Int) else (valB x.val : Int)

/-- Most-significant-first limb comparison: the downward scan of
    operator> on two equal-length limb vectors, returning the order of
    the first differing limb. -/
def cmpMS : List Nat → List Nat → Ordering
  | x :: a, y :: b => if x = y then cmpMS a b else if y < x then .gt else .lt
  | _, _ => .eq

/-- Magnitude comparison of operator>: longer vector wins (no leading
    zero limb exists for canonical values), equal lengths are scanned
    from the most-significant limb down. -/
def magCmp (u v : List Nat) : Ordering :=
  if u.length = v.length then cmpMS u.reverse v.reverse
  else if v.length < u.length then .gt else .lt

/-- Operator >: sign first (non-negative beats negative), then the
    magnitude comparison, inverted when both operands are negative;
    equal representations give false. -/
def gtB (a b : BigInt) : Bool :=
  if a.sig ≠ b.sig then !a.sig && b.sig
  else
    match magCmp a.val b.val with
    | .gt => !a.sig
    | .lt => a.sig
    | .eq => false

/-- Operator <, defined in the source as b > a. -/
def ltB (a b : BigInt) : Bool := gtB b a

/-- Operator ==: equal sign, equal length, equal limbs. -/
def eqB (a b : BigInt) : Bool := decide (a.sig = b.sig) && decide (a.val = b.val)

/-- Same-sign branch of operator-: when the subtrahend is larger in the
    signed order the operands are swapped and the result sign flipped;
    the inner recursive call then provably takes the direct branch (the
    comparison is asymmetric), so it is inlined here as the direct
    magnitude subtraction followed by Trim. -/
def subSame (a b : BigInt) : BigInt :=
  if (!a.sig && ltB a b) || (a.sig && gtB a b) then
    let ans := trimBig ⟨SubMag b.val a.val, b.sig⟩
    ⟨ans.val, !ans.sig⟩
  else trimBig ⟨SubMag a.val b.val, a.sig⟩

/-- Operator +: differing signs delegate to subtraction with the second
    sign flipped; equal signs add the magnitudes (no Trim is applied on
    this path in the source). -/
def plusB (a b : BigInt) : BigInt :=
  if a.sig ≠ b.sig then subSame a ⟨b.val, !b.sig⟩
  else ⟨addC a.val b.val 0, a.sig⟩

/-- Operator -: differing signs delegate to addition with the second
    sign flipped; equal signs use the same-sign subtraction path. -/
def subB (a b : BigInt) : BigInt :=
  if a.sig ≠ b.sig then plusB a ⟨b.val, !b.sig⟩
  else subSame a b

/-- Limb loop of BigInt(int64_t): push value mod base while dividing by
    base. Fuel 64 covers far more limbs than any int64 needs. -/
def pushLimbsF : Nat → Nat → List Nat
  | 0, _ => []
  | f + 1, m => if m = 0 then [] else m % base :: pushLimbsF f (m / base)

/-- Constructor BigInt(int64_t x): record the sign, take absolute value,
    push limbs least-significant first, then reverse the vector. The
    member vector starts empty, so x = 0 pushes nothing. -/
def bigIntOfInt (x : Int) : BigInt :=
  ⟨(pushLimbsF 64 x.natAbs).reverse, decide (x < 0)⟩

/-- Left-to-right decimal accumulation v = v * 10 + (c - '0') over a
    character group. Character codes below '0' saturate to 0 here; every
    input evaluated in this development uses codes at or above '0',
    where this agrees with the source's signed arithmetic. -/
def digitsVal (cs : List Char) : Nat := cs.foldl (fun v c => v * 10 + (c.toNat - 48)) 0

/-- Grouping loop of the string constructor: consume nine characters at
    a time, pushing each group's value unconditionally. Fuel bounds the
    number of groups; the constructor passes the string length. -/
def group9F : Nat → List Char → List Nat
  | 0, _ => []
  | _ + 1, [] => []
  | f + 1, cs => digitsVal (cs.take 9) :: group9F f (cs.drop 9)

/-- Body of BigInt(const char*) after the optional sign: empty digit run
    resets the sign and stores the limb 0; otherwise the leading
    (length mod 9)-character group is pushed only when nonzero, the full
    nine-character groups are pushed unconditionally, and the vector is
    reversed into least-significant-first order. -/
def parseCore (t : List Char) (sg : Bool) : BigInt :=
  if t.length = 0 then ⟨[0], false⟩
  else
    let i := t.length % 9
    let v := digitsVal (t.take i)
    ⟨((if v ≠ 0 then [v] else []) ++ group9F t.length (t.drop i)).reverse, sg⟩

/-- Constructor BigInt(const char*): an optional leading '-' sets the
    sign, the rest is handed to the digit-run body. -/
def parseB : List Char → BigInt
  | '-' :: rest => parseCore rest true
  | s => parseCore s false

/-- Fixed nine-character zero-padded decimal field, the snprintf %09d of
    ToString (faithful for limbs below base, the only limbs a canonical
    magnitude holds). -/
def pad9 (n : Nat) : List Char :=
  List.replicate (9 - (Nat.toDigits 10 n).length) '0' ++ Nat.toDigits 10 n

/-- ToString(): optional minus, the most-significant limb in plain
    decimal, then every remaining limb as a nine-digit zero-padded field
    from second-most-significant down. Reading the last limb of an empty
    magnitude is out of range in the source; that is the none branch. -/
def toStringB (x : BigInt) : Option (List Char) :=
  match x.val.getLast? with
  | none => none
  | some top =>
    some ((if x.sig then ['-'] else []) ++ Nat.toDigits 10 top
      ++ (x.val.dropLast.reverse.map pad9).flatten)

/-- Digit-count loop of DigCount: repeatedly divide the most-significant
    limb by 10, counting steps. Fuel equals the starting value, which
    bounds the number of divisions. -/
def countDigitsF : Nat → Nat → Nat
  | 0, _ => 0
  | f + 1, t => if t = 0 then 0 else countDigitsF f (t / 10) + 1

/-- DigCount(): nine digits for every limb below the most-significant
    one plus the decimal digit count of that limb (back() of the
    magnitude, modelled with default 0 for the degenerate empty vector). -/
def digCountB (x : BigInt) : Nat :=
  (x.val.length - 1) * 9 + countDigitsF (x.val.getLastD 0) (x.val.getLastD 0)

/-- Mask-width loop of PowInt: count how many halvings bring n to zero
    (the final mask is two to this power). Fuel equals n. -/
def bitLenF : Nat → Nat → Nat
  | 0, _ => 0
  | f + 1, t => if t = 0 then 0 else bitLenF f (t / 2) + 1

/-- Operator *: result sign is the xor of the operand signs, the
    magnitude is Multiply of the magnitudes, then Trim. -/
def bmulF (f : Nat) (x y : BigInt) : Except MulErr BigInt :=
  match MultiplyF f x.val y.val with
  | .error e => .error e
  | .ok v => .ok (trimBig ⟨v, Bool.xor x.sig y.sig⟩)

/-- Squaring-and-multiply loop of PowInt: the parameter k is the
    exponent of the current power-of-two mask; each step squares the
    accumulator and multiplies by x when bit k of n is set. -/
def powLoopF (f : Nat) (x : BigInt) (n : Nat) : Nat → BigInt → Except MulErr BigInt
  | 0, res =>
    match bmulF f res res with
    | .error e => .error e
    | .ok r2 => if n.testBit 0 then bmulF f r2 x else .ok r2
  | k + 1, res =>
    match bmulF f res res with
    | .error e => .error e
    | .ok r2 =>
      match (if n.testBit (k + 1) then bmulF f r2 x else .ok r2) with
      | .error e => .error e
      | .ok r3 => powLoopF f x n k r3

/-- PowInt(x, n): find the mask width by doubling, then run the binary
    exponentiation loop starting from res = BigInt(1). -/
def powIntF (f : Nat) (x : BigInt) (n : Nat) : Except MulErr BigInt :=
  powLoopF f x n (bitLenF n n) ⟨[1], false⟩

/-- Canonical magnitude invariant of the data model: non-empty, every
    limb below base, no most-significant zero limb unless the magnitude
    is exactly the single limb 0. -/
def CanonM (l : List Nat) : Prop :=
  l ≠ [] ∧ (∀ d ∈ l, d < base) ∧ (l.getLast? = some 0 → l = [0])

/-- Canonical BigInt invariant: canonical magnitude and no negative
    zero. -/
def CanonB (x : BigInt) : Prop := CanonM x.val ∧ (x.sig = true → x.val ≠ [0])

instance (l : List Nat) : Decidable (CanonM l) := by
  unfold CanonM
  infer_instance

instance (x : BigInt) : Decidable (CanonB x) := by
  unfold CanonB
  infer_instance

theorem valB_nil : valB [] = 0 := rfl

theorem valB_cons (d : Nat) (l : List Nat) : valB (d :: l) = d + base * valB l := rfl

theorem base_pos : 0 < base := by decide

theorem valB_append (xs ys : List Nat) :
    valB (xs ++ ys) = valB xs + base ^ xs.length * valB ys := by
  induction xs with
  | nil => simp [valB_nil]
  | cons d xs ih =>
    simp only [List.cons_append, valB_cons, ih, List.length_cons, pow_succ]
    ring

theorem valB_take_drop (l : List Nat) (n : Nat) (h : n ≤ l.length) :
    valB l = valB (l.take n) + base ^ n * valB (l.drop n) := by
  conv_lhs => rw [← List.take_append_drop n l]
  rw [valB_append, List.length_take, Nat.min_eq_left h]

theorem valB_lt_pow (l : List Nat) (h : ∀ x ∈ l, x < base) :
    valB l < base ^ l.length := by
  induction l with
  | nil => simp [valB_nil]
  | cons d t ih =>
    have hd : d < base := h d (by simp)
    have ht : valB t < base ^ t.length := ih (fun x hx => h x (by simp [hx]))
    have h1 : base * (valB t + 1) ≤ base * base ^ t.length :=
      Nat.mul_le_mul_left base ht
    simp only [valB_cons, List.length_cons, pow_succ]
    calc d + base * valB t < base + base * valB t := by omega
    _ = base * (valB t + 1) := by ring
    _ ≤ base * base ^ t.length := h1
    _ = base ^ t.length * base := by ring

theorem one_lt_base : 1 < base := by decide

theorem valB_take_of_lt (l : List Nat) (n : Nat) (h : valB l < base ^ n) :
    valB (l.take n) = valB l := by
  by_cases hl : l.length ≤ n
  · rw [List.take_of_length_le hl]
  · push_neg at hl
    have hsplit := valB_take_drop l n (le_of_lt hl)
    by_cases hz : valB (l.drop n) = 0
    · rw [hz, mul_zero] at hsplit
      omega
    · exfalso
      have h2 : base ^ n * 1 ≤ base ^ n * valB (l.drop n) :=
        Nat.mul_le_mul_left _ (by omega)
      rw [mul_one] at h2
      omega

theorem valB_take_headD (b : List Nat) (n : Nat) :
    valB (b.take (n + 1)) = b.headD 0 + base * valB (b.tail.take n) := by
  cases b with
  | nil => simp [valB_nil]
  | cons y bs => simp [List.take_succ_cons, valB_cons]

theorem addTail_val (b : List Nat) : ∀ c, valB (addTail b c) = valB b + c := by
  induction b with
  | nil =>
    intro c
    by_cases h : c = 0 <;> simp [addTail, h, valB_nil, valB_cons]
  | cons y b ih =>
    intro c
    have h1 := Nat.mod_add_div (c + y) base
    simp only [addTail, valB_cons, ih, Nat.mul_add]
    omega

theorem addC_val (a : List Nat) : ∀ b c, valB (addC a b c) = valB a + valB b + c := by
  induction a with
  | nil =>
    intro b c
    show valB (addTail b c) = valB [] + valB b + c
    rw [addTail_val, valB_nil]
    omega
  | cons x a ih =>
    intro b c
    have h1 := Nat.mod_add_div (c + x + b.headD 0) base
    have h2 : valB b = b.headD 0 + base * valB b.tail := by
      cases b <;> simp [valB_nil, valB_cons]
    simp only [addC, valB_cons, ih, Nat.mul_add]
    omega

theorem addTail_bound (b : List Nat) :
    ∀ c, (∀ x ∈ b, x < base) → c ≤ 1 → ∀ x ∈ addTail b c, x < base := by
  induction b with
  | nil =>
    intro c _ hc z hz
    have h2 := one_lt_base
    by_cases h : c = 0 <;> simp [addTail, h] at hz
    omega
  | cons y b ih =>
    intro c hb hc z hz
    have hy : y < base := hb y (by simp)
    simp only [addTail, List.mem_cons] at hz
    rcases hz with h | h
    · have : (c + y) % base < base := Nat.mod_lt _ base_pos
      omega
    · refine ih ((c + y) / base) (fun w hw => hb w (by simp [hw])) ?_ z h
      have h6 : (c + y) / base < 2 := Nat.div_lt_of_lt_mul (by omega)
      omega

theorem addC_bound (a : List Nat) :
    ∀ b c, (∀ x ∈ a, x < base) → (∀ x ∈ b, x < base) → c ≤ 1 →
      ∀ x ∈ addC a b c, x < base := by
  induction a with
  | nil =>
    intro b c _ hb hc z hz
    exact addTail_bound b c hb hc z hz
  | cons x a ih =>
    intro b c ha hb hc z hz
    have hx : x < base := ha x (by simp)
    have hy : b.headD 0 < base := by
      cases b with
      | nil => simpa using base_pos
      | cons y bs => exact hb y (by simp)
    simp only [addC, List.mem_cons] at hz
    rcases hz with h | h
    · have : (c + x + b.headD 0) % base < base := Nat.mod_lt _ base_pos
      omega
    · refine ih b.tail ((c + x + b.headD 0) / base) (fun w hw => ha w (by simp [hw]))
        (fun w hw => hb w (List.mem_of_mem_tail hw)) ?_ z h
      have h6 : (c + x + b.headD 0) / base < 2 := Nat.div_lt_of_lt_mul (by omega)
      omega

theorem mulRow_val (a : List Nat) (d : Nat) :
    ∀ c, valB (mulRow a d c) = valB a * d + c := by
  induction a with
  | nil =>
    intro c
    by_cases h : c = 0 <;> simp [mulRow, h, valB_nil, valB_cons]
  | cons x a ih =>
    intro c
    have h1 := Nat.mod_add_div (c + x * d) base
    simp only [mulRow, valB_cons, ih, Nat.mul_add, Nat.add_mul, Nat.mul_assoc]
    omega

theorem mulRow_bound (a : List Nat) (d : Nat) (hd : d < base) :
    ∀ c, (∀ x ∈ a, x < base) → c < base → ∀ x ∈ mulRow a d c, x < base := by
  induction a with
  | nil =>
    intro c _ hc z hz
    by_cases h : c = 0 <;> simp [mulRow, h] at hz
    omega
  | cons x a ih =>
    intro c ha hc z hz
    have hx : x < base := ha x (by simp)
    simp only [mulRow, List.mem_cons] at hz
    rcases hz with h | h
    · have : (c + x * d) % base < base := Nat.mod_lt _ base_pos
      omega
    · refine ih ((c + x * d) / base) (fun w hw => ha w (by simp [hw])) ?_ z h
      have h5 : c + x * d < base * base := by nlinarith
      exact Nat.div_lt_of_lt_mul (by omega)

theorem AddMag_ok_iff (a b : List Nat) (s : Nat) (r : List Nat) :
    AddMag a b s = .ok r ↔ s ≤ b.length ∧ r = b.take s ++ addC a (b.drop s) 0 := by
  unfold AddMag
  split
  · constructor
    · intro h
      cases h
      exact ⟨by assumption, rfl⟩
    · rintro ⟨-, rfl⟩; rfl
  · constructor
    · intro h; cases h
    · rintro ⟨h, -⟩; omega

theorem AddMag_val (a b : List Nat) (s : Nat) (r : List Nat)
    (h : AddMag a b s = .ok r) : valB r = valB a * base ^ s + valB b := by
  rw [AddMag_ok_iff] at h
  obtain ⟨hs, rfl⟩ := h
  rw [valB_append, addC_val, List.length_take, Nat.min_eq_left hs,
    valB_take_drop b s hs]
  ring

theorem AddMag_take (a b : List Nat) (s : Nat) (r : List Nat)
    (h : AddMag a b s = .ok r) : r.take s = b.take s := by
  rw [AddMag_ok_iff] at h
  obtain ⟨hs, rfl⟩ := h
  rw [List.take_append_of_le_length (by simp [hs]), List.take_take,
    Nat.min_self]

theorem AddMag_bound (a b : List Nat) (s : Nat) (r : List Nat)
    (ha : ∀ x ∈ a, x < base) (hb : ∀ x ∈ b, x < base)
    (h : AddMag a b s = .ok r) : ∀ x ∈ r, x < base := by
  rw [AddMag_ok_iff] at h
  obtain ⟨hs, rfl⟩ := h
  intro z hz
  rcases List.mem_append.mp hz with h | h
  · exact hb z (List.mem_of_mem_take h)
  · exact addC_bound a (b.drop s) 0 ha (fun z hz => hb z (List.mem_of_mem_drop hz))
      (by omega) z h

theorem effTrim_val (l : List Nat) : valB (effTrim l) = valB l := by
  induction l with
  | nil => rfl
  | cons x xs ih =>
    cases heq : effTrim xs with
    | nil =>
      have h0 : valB xs = 0 := by rw [← ih, heq, valB_nil]
      by_cases h : x = 0 <;>
        simp [effTrim, heq, h, valB_cons, valB_nil, h0]
    | cons r rs =>
      have h1 : effTrim (x :: xs) = x :: r :: rs := by
        simp [effTrim, heq]
      rw [h1, valB_cons, ← heq, ih, valB_cons]

theorem effTrim_subset (l : List Nat) : ∀ x ∈ effTrim l, x ∈ l := by
  induction l with
  | nil => simp [effTrim]
  | cons x xs ih =>
    intro z hz
    cases heq : effTrim xs with
    | nil =>
      by_cases h : x = 0 <;> simp [effTrim, heq, h] at hz
      simp [hz]
    | cons r rs =>
      have h1 : effTrim (x :: xs) = x :: r :: rs := by
        simp [effTrim, heq]
      rw [h1] at hz
      rcases List.mem_cons.mp hz with h | h
      · simp [h]
      · exact List.mem_cons_of_mem x (ih z (heq ▸ h))

theorem trimKeepOne_val (l : List Nat) : valB (trimKeepOne l) = valB l := by
  unfold trimKeepOne
  split
  · rename_i heq
    have h0 : valB l = 0 := by rw [← effTrim_val l, heq, valB_nil]
    by_cases h : l = [] <;> simp [h, valB_nil, valB_cons, h0]
  · exact effTrim_val l

theorem trimKeepOne_subset (l : List Nat) : ∀ x ∈ trimKeepOne l, x ∈ l ∨ x = 0 := by
  intro z hz
  unfold trimKeepOne at hz
  split at hz
  · by_cases h : l = [] <;> simp [h] at hz
    right; exact hz
  · left; exact effTrim_subset l z hz

theorem subLimbs_length (a : List Nat) :
    ∀ (b : List Nat) (c : Int), (subLimbs a b c).length = a.length := by
  induction a with
  | nil => intro b c; rfl
  | cons x a ih =>
    intro b c
    unfold subLimbs
    split <;> simp [ih]

theorem subLimbs_bound (a : List Nat) :
    ∀ (b : List Nat) (c : Int), (c = 0 ∨ c = -1) → (∀ x ∈ a, x < base) →
      ∀ x ∈ subLimbs a b c, x < base := by
  induction a with
  | nil => simp [subLimbs]
  | cons x a ih =>
    intro b c hc ha z hz
    have hx : x < base := ha x (by simp)
    unfold subLimbs at hz
    split at hz <;> rcases List.mem_cons.mp hz with h | h
    · subst h
      rename_i hlt
      have h1 : c + x - b.headD 0 + base < base := by omega
      omega
    · exact ih b.tail (-1) (Or.inr rfl) (fun w hw => ha w (by simp [hw])) z h
    · subst h
      have h1 : (0 : Int) ≤ c + x - b.headD 0 := by omega
      have h2 : c + x - (b.headD 0 : Int) ≤ x := by
        rcases hc with h | h <;> subst h <;> omega
      omega
    · exact ih b.tail 0 (Or.inl rfl) (fun w hw => ha w (by simp [hw])) z h

theorem valB_cons_int (d : Nat) (l : List Nat) :
    (valB (d :: l) : Int) = (d : Int) + base * valB l := by
  rw [valB_cons]
  push_cast
  ring

theorem subLimbs_val (a : List Nat) :
    ∀ (b : List Nat) (c : Int), (c = 0 ∨ c = -1) → (∀ x ∈ b, x < base) →
    ∃ β : Nat, β ≤ 1 ∧ (valB (subLimbs a b c) : Int) =
      (valB a : Int) - valB (b.take a.length) + c + β * (base : Int) ^ a.length := by
  induction a with
  | nil =>
    intro b c hc _
    refine ⟨(-c).toNat, by omega, ?_⟩
    simp only [subLimbs, valB_nil, List.length_nil, List.take_zero, pow_zero]
    rcases hc with h | h <;> subst h <;> simp
  | cons x a ih =>
    intro b c hc hb
    have hy : (b.headD 0 : Int) < base := by
      cases b with
      | nil => simpa using base_pos
      | cons y bs => exact_mod_cast hb y (by simp)
    have hy0 : (0 : Int) ≤ b.headD 0 := by positivity
    have htake := valB_take_headD b a.length
    unfold subLimbs
    split
    · rename_i hlt
      obtain ⟨β, hβ, hval⟩ := ih b.tail (-1) (Or.inr rfl)
        (fun w hw => hb w (List.mem_of_mem_tail hw))
      refine ⟨β, hβ, ?_⟩
      rw [valB_cons_int, Int.toNat_of_nonneg (by omega), hval,
        List.length_cons, valB_cons_int, htake]
      push_cast
      ring
    · rename_i hge
      obtain ⟨β, hβ, hval⟩ := ih b.tail 0 (Or.inl rfl)
        (fun w hw => hb w (List.mem_of_mem_tail hw))
      refine ⟨β, hβ, ?_⟩
      rw [valB_cons_int, Int.toNat_of_nonneg (by omega), hval,
        List.length_cons, valB_cons_int, htake]
      push_cast
      ring

theorem SubMag_val (a b : List Nat) (ha : ∀ x ∈ a, x < base)
    (hb : ∀ x ∈ b, x < base) (h : valB (b.take a.length) ≤ valB a) :
    valB (SubMag a b) = valB a - valB (b.take a.length) := by
  obtain ⟨β, hβ, hval⟩ := subLimbs_val a b 0 (Or.inl rfl) hb
  have hlen := subLimbs_length a b 0
  have hbnd : valB (subLimbs a b 0) < base ^ a.length := by
    have := valB_lt_pow (subLimbs a b 0) (subLimbs_bound a b 0 (Or.inl rfl) ha)
    rwa [hlen] at this
  have hβ0 : β = 0 := by
    by_contra hne
    have hβ1 : β = 1 := by omega
    subst hβ1
    have hcast : ((valB (subLimbs a b 0) : Int)) < (base : Int) ^ a.length := by
      exact_mod_cast hbnd
    have hge : ((base : Int)) ^ a.length ≤ (valB (subLimbs a b 0) : Int) := by
      rw [hval]
      have : (valB (b.take a.length) : Int) ≤ (valB a : Int) := by exact_mod_cast h
      push_cast
      omega
    omega
  subst hβ0
  simp only [Nat.cast_zero, zero_mul, add_zero] at hval
  unfold SubMag
  rw [trimKeepOne_val]
  omega

theorem SubMag_bound (a b : List Nat) (ha : ∀ x ∈ a, x < base) :
    ∀ x ∈ SubMag a b, x < base := by
  intro z hz
  rcases trimKeepOne_subset _ z hz with h | h
  · exact subLimbs_bound a b 0 (Or.inl rfl) ha z h
  · subst h; exact base_pos

theorem headD_lt (b : List Nat) (hb : ∀ d ∈ b, d < base) : b.headD 0 < base := by
  cases b with
  | nil => exact base_pos
  | cons y bs => exact hb y (by simp)

theorem tail_bound (b : List Nat) (hb : ∀ d ∈ b, d < base) :
    ∀ d ∈ b.tail, d < base :=
  fun d hd => hb d (List.mem_of_mem_tail hd)

theorem take_bound (l : List Nat) (n : Nat) (h : ∀ d ∈ l, d < base) :
    ∀ d ∈ l.take n, d < base :=
  fun d hd => h d (List.mem_of_mem_take hd)

theorem drop_bound (l : List Nat) (n : Nat) (h : ∀ d ∈ l, d < base) :
    ∀ d ∈ l.drop n, d < base :=
  fun d hd => h d (List.mem_of_mem_drop hd)

theorem valB_eq_headD (b : List Nat) : valB b = b.headD 0 + base * valB b.tail := by
  cases b <;> simp [valB_nil, valB_cons]

theorem mulCore_bound (recF : List Nat → List Nat → Except MulErr (List Nat))
    (hrec : ∀ u v w, (∀ d ∈ u, d < base) → (∀ d ∈ v, d < base) →
      recF u v = .ok w → ∀ d ∈ w, d < base)
    (a b r : List Nat) (ha : ∀ d ∈ a, d < base) (hb : ∀ d ∈ b, d < base)
    (h : mulCore recF a b = .ok r) : ∀ d ∈ r, d < base := by
  unfold mulCore at h
  split at h
  · simp only [Except.ok.injEq] at h
    subst h
    intro d hd
    simp at hd
    subst hd
    exact base_pos
  split at h
  · split at h
    · simp only [Except.ok.injEq] at h
      subst h
      exact mulRow_bound a (b.headD 0) (headD_lt b hb) 0 ha base_pos
    · exact AddMag_bound _ _ _ r
        (mulRow_bound a (b.tail.headD 0) (headD_lt _ (tail_bound b hb)) 0 ha base_pos)
        (mulRow_bound a (b.headD 0) (headD_lt b hb) 0 ha base_pos) h
  · split at h
    · -- unbalanced split
      split at h
      · exact absurd h (by simp)
      rename_i ahbl hm1
      split at h
      · exact absurd h (by simp)
      rename_i albl hm2
      exact AddMag_bound _ _ _ r
        (hrec _ _ _ (drop_bound a _ ha) hb hm1)
        (hrec _ _ _ (take_bound a _ ha) hb hm2) h
    · -- Karatsuba combination
      split at h
      · exact absurd h (by simp)
      rename_i phh hm1
      split at h
      · exact absurd h (by simp)
      rename_i pll hm2
      split at h
      · exact absurd h (by simp)
      rename_i s hm3
      split at h
      · exact absurd h (by simp)
      rename_i t2 hm4
      have hphh := hrec _ _ _ (drop_bound a _ ha) (drop_bound b _ hb) hm1
      have hpll := hrec _ _ _ (take_bound a _ ha) (take_bound b _ hb) hm2
      have ht2 := AddMag_bound _ _ _ t2
        (SubMag_bound _ (addC phh pll 0)
          (hrec _ _ _ (addC_bound _ _ _ (drop_bound a _ ha) (take_bound a _ ha) (by omega))
            (addC_bound _ _ _ (drop_bound b _ hb) (take_bound b _ hb) (by omega)) hm3))
        hpll hm4
      exact AddMag_bound _ _ _ r hphh ht2 h

theorem mulCore_val (recF : List Nat → List Nat → Except MulErr (List Nat))
    (hrecb : ∀ u v w, (∀ d ∈ u, d < base) → (∀ d ∈ v, d < base) →
      recF u v = .ok w → ∀ d ∈ w, d < base)
    (hrecv : ∀ u v w, (∀ d ∈ u, d < base) → (∀ d ∈ v, d < base) →
      recF u v = .ok w → valB w = valB u * valB v)
    (a b r : List Nat) (ha : ∀ d ∈ a, d < base) (hb : ∀ d ∈ b, d < base)
    (h : mulCore recF a b = .ok r) : valB r = valB a * valB b := by
  unfold mulCore at h
  split at h
  · -- b is all zero after the trim
    rename_i h0
    simp only [Except.ok.injEq] at h
    subst h
    have hbnil : b = [] := List.length_eq_zero.mp h0
    subst hbnil
    simp [valB_cons, valB_nil]
  split at h
  · rename_i h0 h2
    split at h
    · -- single-limb multiplier
      rename_i h1
      simp only [Except.ok.injEq] at h
      subst h
      rw [mulRow_val]
      have htl : b.tail = [] := by
        have : b.tail.length = 0 := by simp [List.length_tail]; omega
        exact List.length_eq_zero.mp this
      rw [valB_eq_headD b, htl, valB_nil]
      ring
    · -- two-limb multiplier
      rename_i h1
      have hv := AddMag_val _ _ _ _ h
      rw [mulRow_val, mulRow_val] at hv
      have htt : b.tail.tail = [] := by
        have : b.tail.tail.length = 0 := by simp [List.length_tail]; omega
        exact List.length_eq_zero.mp this
      rw [hv, valB_eq_headD b, valB_eq_headD b.tail, htt, valB_nil]
      ring
  · rename_i h0 h2
    split at h
    · -- unbalanced split
      rename_i hble
      split at h
      · exact absurd h (by simp)
      rename_i ahbl hm1
      split at h
      · exact absurd h (by simp)
      rename_i albl hm2
      have hv := AddMag_val _ _ _ _ h
      rw [hrecv _ _ _ (drop_bound a _ ha) hb hm1,
        hrecv _ _ _ (take_bound a _ ha) hb hm2] at hv
      rw [hv, valB_take_drop a (a.length / 2) (Nat.div_le_self _ _)]
      ring
    · -- Karatsuba combination
      rename_i hbgt
      split at h
      · exact absurd h (by simp)
      rename_i phh hm1
      split at h
      · exact absurd h (by simp)
      rename_i pll hm2
      split at h
      · exact absurd h (by simp)
      rename_i s hm3
      split at h
      · exact absurd h (by simp)
      rename_i t2 hm4
      have hla : a.length / 2 ≤ a.length := Nat.div_le_self _ _
      have hlb : a.length / 2 ≤ b.length := by omega
      have hbphh := hrecb _ _ _ (drop_bound a _ ha) (drop_bound b _ hb) hm1
      have hbpll := hrecb _ _ _ (take_bound a _ ha) (take_bound b _ hb) hm2
      have hbs := hrecb _ _ _
        (addC_bound _ _ _ (drop_bound a _ ha) (take_bound a _ ha) (by omega))
        (addC_bound _ _ _ (drop_bound b _ hb) (take_bound b _ hb) (by omega)) hm3
      have hvphh := hrecv _ _ _ (drop_bound a _ ha) (drop_bound b _ hb) hm1
      have hvpll := hrecv _ _ _ (take_bound a _ ha) (take_bound b _ hb) hm2
      have hvs : valB s =
          (valB (a.drop (a.length / 2)) + valB (a.take (a.length / 2))) *
            (valB (b.drop (a.length / 2)) + valB (b.take (a.length / 2))) := by
        have := hrecv _ _ _
          (addC_bound _ _ _ (drop_bound a _ ha) (take_bound a _ ha) (by omega))
          (addC_bound _ _ _ (drop_bound b _ hb) (take_bound b _ hb) (by omega)) hm3
        rw [this, addC_val, addC_val]
        ring
      have hpsum_val : valB (addC phh pll 0) = valB phh + valB pll := by
        rw [addC_val]
        omega
      have hpsum_le : valB (addC phh pll 0) ≤ valB s := by
        rw [hpsum_val, hvphh, hvpll, hvs]
        nlinarith [Nat.zero_le (valB (a.drop (a.length / 2)) * valB (b.take (a.length / 2))),
          Nat.zero_le (valB (a.take (a.length / 2)) * valB (b.drop (a.length / 2)))]
      have hslt : valB s < base ^ s.length := valB_lt_pow s hbs
      have htake_eq : valB ((addC phh pll 0).take s.length) = valB (addC phh pll 0) :=
        valB_take_of_lt _ _ (lt_of_le_of_lt hpsum_le hslt)
      have hsub : valB (SubMag s (addC phh pll 0)) = valB s - (valB phh + valB pll) := by
        have hs0 := SubMag_val s (addC phh pll 0) hbs
          (addC_bound _ _ _ hbphh hbpll (by omega))
          (by rw [htake_eq]; exact hpsum_le)
        rw [htake_eq, hpsum_val] at hs0
        exact hs0
      have hcross : valB (SubMag s (addC phh pll 0)) =
          valB (a.drop (a.length / 2)) * valB (b.take (a.length / 2)) +
            valB (a.take (a.length / 2)) * valB (b.drop (a.length / 2)) := by
        have hexp : valB s = valB phh + valB pll +
            (valB (a.drop (a.length / 2)) * valB (b.take (a.length / 2)) +
              valB (a.take (a.length / 2)) * valB (b.drop (a.length / 2))) := by
          rw [hvs, hvphh, hvpll]
          ring
        rw [hsub]
        omega
      have hvt2 := AddMag_val _ _ _ _ hm4
      have hvr := AddMag_val _ _ _ _ h
      rw [hvt2, hcross, hvpll] at hvr
      rw [hvr, hvphh, valB_take_drop a (a.length / 2) hla,
        valB_take_drop b (a.length / 2) hlb]
      ring

theorem mulStep_bound (recF : List Nat → List Nat → Except MulErr (List Nat))
    (hrec : ∀ u v w, (∀ d ∈ u, d < base) → (∀ d ∈ v, d < base) →
      recF u v = .ok w → ∀ d ∈ w, d < base)
    (x y r : List Nat) (hx : ∀ d ∈ x, d < base) (hy : ∀ d ∈ y, d < base)
    (h : mulStep recF x y = .ok r) : ∀ d ∈ r, d < base := by
  have hx1 : ∀ d ∈ effTrim x, d < base := fun d hd => hx d (effTrim_subset x d hd)
  have hy1 : ∀ d ∈ effTrim y, d < base := fun d hd => hy d (effTrim_subset y d hd)
  unfold mulStep at h
  split at h
  · exact mulCore_bound recF hrec _ _ r hy1 hx1 h
  · exact mulCore_bound recF hrec _ _ r hx1 hy1 h

theorem mulStep_val (recF : List Nat → List Nat → Except MulErr (List Nat))
    (hrecb : ∀ u v w, (∀ d ∈ u, d < base) → (∀ d ∈ v, d < base) →
      recF u v = .ok w → ∀ d ∈ w, d < base)
    (hrecv : ∀ u v w, (∀ d ∈ u, d < base) → (∀ d ∈ v, d < base) →
      recF u v = .ok w → valB w = valB u * valB v)
    (x y r : List Nat) (hx : ∀ d ∈ x, d < base) (hy : ∀ d ∈ y, d < base)
    (h : mulStep recF x y = .ok r) : valB r = valB x * valB y := by
  have hx1 : ∀ d ∈ effTrim x, d < base := fun d hd => hx d (effTrim_subset x d hd)
  have hy1 : ∀ d ∈ effTrim y, d < base := fun d hd => hy d (effTrim_subset y d hd)
  unfold mulStep at h
  split at h
  · rw [mulCore_val recF hrecb hrecv _ _ r hy1 hx1 h, effTrim_val, effTrim_val]
    ring
  · rw [mulCore_val recF hrecb hrecv _ _ r hx1 hy1 h, effTrim_val, effTrim_val]

theorem MultiplyF_bound (f : Nat) :
    ∀ x y r, (∀ d ∈ x, d < base) → (∀ d ∈ y, d < base) →
      MultiplyF f x y = .ok r → ∀ d ∈ r, d < base := by
  induction f with
  | zero => intro x y r _ _ h; exact absurd h (by simp [MultiplyF])
  | succ f ih => intro x y r hx hy h; exact mulStep_bound (MultiplyF f) ih x y r hx hy h

theorem MultiplyF_val (f : Nat) :
    ∀ x y r, (∀ d ∈ x, d < base) → (∀ d ∈ y, d < base) →
      MultiplyF f x y = .ok r → valB r = valB x * valB y := by
  induction f with
  | zero => intro x y r _ _ h; exact absurd h (by simp [MultiplyF])
  | succ f ih =>
    intro x y r hx hy h
    exact mulStep_val (MultiplyF f) (MultiplyF_bound f) ih x y r hx hy h

/-- C1: the int64 constructor is claimed to produce the magnitude of the
    absolute value, least-significant limb first, with magnitude exactly
    the single limb 0 for input 0. The code instead leaves the magnitude
    empty for input 0, and its final reverse puts the limbs in
    most-significant-first order, so the constructed value for 10^9 is the
    limb vector 1, 0, which denotes 1 under the least-significant-first
    reading used by every other routine. -/
theorem c1_int64_constructor_divergence :
    bigIntOfInt 0 = ⟨[], false⟩ ∧ bigIntOfInt 1000000000 = ⟨[1, 0], false⟩ ∧
      valB [1, 0] = 1 := by
  refine ⟨rfl, rfl, by decide⟩

/-- C2: the parse-then-serialize round trip is claimed to yield the
    canonical decimal form. Parsing seventeen zeros followed by 1 leaves
    a most-significant zero limb, so serialization prints 0000000001
    instead of the canonical 1; and parsing the string 0 leaves the
    magnitude empty, so serialization reads the last limb of an empty
    vector (out of range in the source, the none branch here). -/
theorem c2_parse_serialize_roundtrip_divergence :
    toStringB (parseB ['0','0','0','0','0','0','0','0','0','0','0','0','0','0','0','0','0','1'])
        = some ['0','0','0','0','0','0','0','0','0','1'] ∧
      ['0','0','0','0','0','0','0','0','0','1'] ≠ ['1'] ∧
      parseB ['0'] = ⟨[], false⟩ ∧ toStringB (parseB ['0']) = none := by
  refine ⟨by decide, by decide, rfl, rfl⟩

/-- C3: on the pair of four-limb magnitudes both equal to 10^27 (low
    halves all zero), the Karatsuba path performs the out-of-range limb
    read while the independent schoolbook reference returns the exact
    product magnitude of 10^54, so the claimed exact agreement fails at
    this input. -/
theorem c3_multiply_oob_vs_schoolbook :
    MultiplyF 100 [0, 0, 0, 1] [0, 0, 0, 1] = .error .oob ∧
      mulSchool [0, 0, 0, 1] [0, 0, 0, 1] = [0, 0, 0, 0, 0, 0, 1] :=
  ⟨rfl, rfl⟩

/-- C4: in the unbalanced combination for a six-limb operand whose low
    half is all zero times a three-limb operand, the recursive low
    product is the single-limb zero magnitude, and the shifted Add is
    invoked with shift 3 on it: the copy of the lowest 3 limbs reads
    outside that operand, so the claimed-unreachable error branch is
    reached. -/
theorem c4_shifted_add_oob_reachable :
    MultiplyF 100 [0, 0, 0, 1, 1, 1] [1, 1, 1] = .error .oob := rfl

/-- C5 (counterexample): the claim says parsing the empty digit run fails
    with InvalidFormat and returns no validly constructed BigInt; the
    code returns the canonical zero BigInt for it. -/
theorem c5_invalid_format_counterexample :
    parseB [] = ⟨[0], false⟩ ∧ CanonB ⟨[0], false⟩ :=
  ⟨rfl, by decide⟩

/-- C5 (amended): parsing never fails: the empty digit run, with or
    without a leading minus, yields the canonical zero BigInt, and a
    non-digit character is not rejected but folded into the limb by the
    same accumulation (parsing 1A3 gives the single limb 273). -/
theorem c5_parse_total_behavior :
    parseB [] = ⟨[0], false⟩ ∧ parseB ['-'] = ⟨[0], false⟩ ∧
      parseB ['1', 'A', '3'] = ⟨[273], false⟩ := by
  refine ⟨rfl, rfl, by decide⟩

/-- C6 (counterexample): the claim says AddMag(a, b, shift) denotes
    a + b * base ^ shift with the lowest shift limbs taken from a; on
    a = [1], b = [2], shift = 1 the code returns [2, 1], which denotes
    2 + 1 * base and starts with b's limb, not a's. -/
theorem c6_addmag_counterexample :
    AddMag [1] [2] 1 = .ok [2, 1] ∧ valB [2, 1] = 2 + 1 * base ∧
      valB [2, 1] ≠ 1 + 2 * base ∧ [2, 1].take 1 ≠ [1].take 1 := by
  refine ⟨rfl, by decide, by decide, by decide⟩

/-- C6 (amended): AddMag(a, b, shift) returns the magnitude of
    a * base ^ shift + b — the shifted operand is a, and the lowest
    shift limbs of the result are copied from b — whenever shift is at
    most the length of b (beyond that the copy is the out-of-range error
    branch). -/
theorem c6_addmag_shifted_value (a b : List Nat) (s : Nat) (h : s ≤ b.length) :
    ∃ r, AddMag a b s = .ok r ∧ r.take s = b.take s ∧
      valB r = valB a * base ^ s + valB b := by
  have hok : AddMag a b s = .ok (b.take s ++ addC a (b.drop s) 0) := by
    rw [AddMag_ok_iff]
    exact ⟨h, rfl⟩
  exact ⟨_, hok, AddMag_take a b s _ hok, AddMag_val a b s _ hok⟩

/-- C6 witness: the amended statement instantiated at a = [3],
    b = [5, 7], shift = 1. -/
theorem c6_addmag_shifted_value_witness :
    ∃ r, AddMag [3] [5, 7] 1 = .ok r ∧ r.take 1 = [5, 7].take 1 ∧
      valB r = valB [3] * base ^ 1 + valB [5, 7] :=
  c6_addmag_shifted_value [3] [5, 7] 1 (by decide)

/-- C9 (counterexample): squaring the BigInt 10^27 runs the multiply
    kernel into the out-of-range limb read, so PowInt does not return
    x^2 for every x. -/
theorem c9_powint_counterexample :
    powIntF 100 ⟨[0, 0, 0, 1], false⟩ 2 = .error .oob := rfl

theorem valB_snoc (l : List Nat) (d : Nat) :
    valB (l ++ [d]) = valB l + base ^ l.length * d := by
  rw [valB_append]
  simp [valB_cons, valB_nil]

theorem canonM_lower (l : List Nat) (hc : CanonM l) (hne : l ≠ [0]) :
    base ^ (l.length - 1) ≤ valB l := by
  obtain ⟨h0, hb, hlast⟩ := hc
  have hsnoc := List.dropLast_append_getLast h0
  have hlast_ne : l.getLast h0 ≠ 0 := by
    intro hz
    exact hne (hlast (by rw [List.getLast?_eq_getLast l h0, hz]))
  have h1 : base ^ l.dropLast.length * 1 ≤ base ^ l.dropLast.length * l.getLast h0 :=
    Nat.mul_le_mul_left _ (by omega)
  have h2 : valB l = valB l.dropLast + base ^ l.dropLast.length * l.getLast h0 := by
    conv_lhs => rw [← hsnoc]
    rw [valB_snoc]
  rw [List.length_dropLast] at h1 h2
  omega

theorem canonM_pos (l : List Nat) (hc : CanonM l) (hne : l ≠ [0]) : 0 < valB l := by
  have := canonM_lower l hc hne
  have h2 : 0 < base ^ (l.length - 1) := Nat.pos_pow_of_pos _ base_pos
  omega

theorem canonM_zero (l : List Nat) (hc : CanonM l) (hv : valB l = 0) : l = [0] := by
  by_contra hne
  have := canonM_pos l hc hne
  omega

theorem valB_eq_ofDigits (l : List Nat) : valB l = Nat.ofDigits base l := by
  induction l with
  | nil => rw [valB_nil, Nat.ofDigits_nil]
  | cons d t ih => rw [valB_cons, Nat.ofDigits_cons, ih]

theorem canonM_inj (u v : List Nat) (hu : CanonM u) (hv : CanonM v)
    (h : valB u = valB v) : u = v := by
  by_cases hu0 : u = [0]
  · subst hu0
    have : valB v = 0 := by rw [← h]; rfl
    exact (canonM_zero v hv this).symm
  by_cases hv0 : v = [0]
  · subst hv0
    have : valB u = 0 := by rw [h]; rfl
    exact canonM_zero u hu this
  obtain ⟨hu1, hu2, hu3⟩ := hu
  obtain ⟨hv1, hv2, hv3⟩ := hv
  have hdu : Nat.digits base (Nat.ofDigits base u) = u :=
    Nat.digits_ofDigits base one_lt_base u hu2
      (fun hne => fun hz => hu0 (hu3 (by rw [List.getLast?_eq_getLast u hne, hz])))
  have hdv : Nat.digits base (Nat.ofDigits base v) = v :=
    Nat.digits_ofDigits base one_lt_base v hv2
      (fun hne => fun hz => hv0 (hv3 (by rw [List.getLast?_eq_getLast v hne, hz])))
  rw [valB_eq_ofDigits, valB_eq_ofDigits] at h
  rw [← hdu, ← hdv, h]

theorem cmpMS_self (l : List Nat) : cmpMS l l = .eq := by
  induction l with
  | nil => rfl
  | cons x t ih => simp [cmpMS, ih]

theorem cmpMS_eq_iff (u : List Nat) :
    ∀ v : List Nat, u.length = v.length → (cmpMS u v = .eq ↔ u = v) := by
  induction u with
  | nil =>
    intro v hlen
    have : v = [] := List.length_eq_zero.mp hlen.symm
    subst this
    simp [cmpMS]
  | cons x m ih =>
    intro v hlen
    cases v with
    | nil => simp at hlen
    | cons y n =>
      simp only [List.length_cons, Nat.succ_inj] at hlen
      unfold cmpMS
      split
      · rename_i hxy
        subst hxy
        rw [ih n hlen]
        simp
      · rename_i hxy
        constructor
        · intro h
          split at h <;> simp at h
        · intro h
          cases h
          exact absurd rfl hxy

theorem cmpMS_gt_iff (u : List Nat) :
    ∀ v : List Nat, u.length = v.length → (∀ d ∈ u, d < base) → (∀ d ∈ v, d < base) →
      (cmpMS u v = .gt ↔ valB v.reverse < valB u.reverse) := by
  induction u with
  | nil =>
    intro v hlen _ _
    have : v = [] := List.length_eq_zero.mp hlen.symm
    subst this
    simp [cmpMS]
  | cons x m ih =>
    intro v hlen hu hv
    cases v with
    | nil => simp at hlen
    | cons y n =>
      simp only [List.length_cons, Nat.succ_inj] at hlen
      have hx : x < base := hu x (by simp)
      have hy : y < base := hv y (by simp)
      have hm : ∀ d ∈ m, d < base := fun d hd => hu d (by simp [hd])
      have hn : ∀ d ∈ n, d < base := fun d hd => hv d (by simp [hd])
      have hmrev : valB m.reverse < base ^ m.length := by
        have := valB_lt_pow m.reverse (fun d hd => hm d (List.mem_reverse.mp hd))
        rwa [List.length_reverse] at this
      have hnrev : valB n.reverse < base ^ n.length := by
        have := valB_lt_pow n.reverse (fun d hd => hn d (List.mem_reverse.mp hd))
        rwa [List.length_reverse] at this
      have hmsnoc : valB (x :: m).reverse = valB m.reverse + base ^ m.length * x := by
        rw [List.reverse_cons, valB_snoc, List.length_reverse]
      have hnsnoc : valB (y :: n).reverse = valB n.reverse + base ^ n.length * y := by
        rw [List.reverse_cons, valB_snoc, List.length_reverse]
      rw [hlen] at hmrev hmsnoc
      unfold cmpMS
      split
      · rename_i hxy
        subst hxy
        rw [ih n hlen hm hn, hmsnoc, hnsnoc]
        constructor <;> intro h <;> omega
      · rename_i hxy
        rw [hmsnoc, hnsnoc]
        split
        · rename_i hyx
          have e2 : base ^ n.length * (y + 1) ≤ base ^ n.length * x :=
            Nat.mul_le_mul_left _ (by omega)
          have e3 : base ^ n.length * (y + 1) = base ^ n.length * y + base ^ n.length := by
            ring
          constructor
          · intro _
            omega
          · intro _
            rfl
        · rename_i hyx
          have hxy2 : x < y := by omega
          have e2 : base ^ n.length * (x + 1) ≤ base ^ n.length * y :=
            Nat.mul_le_mul_left _ (by omega)
          have e3 : base ^ n.length * (x + 1) = base ^ n.length * x + base ^ n.length := by
            ring
          constructor
          · intro h
            simp at h
          · intro h
            exfalso
            omega

theorem magCmp_eq_iff (u v : List Nat) : magCmp u v = .eq ↔ u = v := by
  unfold magCmp
  split
  · rename_i hlen
    rw [cmpMS_eq_iff u.reverse v.reverse (by simp [hlen]), List.reverse_inj]
  · rename_i hlen
    constructor
    · intro h
      split at h <;> simp at h
    · intro h
      subst h
      exact absurd rfl hlen

theorem magCmp_gt_iff (u v : List Nat) (hu : CanonM u) (hv : CanonM v) :
    magCmp u v = .gt ↔ valB v < valB u := by
  unfold magCmp
  split
  · rename_i hlen
    rw [cmpMS_gt_iff u.reverse v.reverse (by simp [hlen])
      (fun d hd => hu.2.1 d (List.mem_reverse.mp hd))
      (fun d hd => hv.2.1 d (List.mem_reverse.mp hd))]
    simp
  · rename_i hlen
    have hul : 0 < u.length := List.length_pos.mpr hu.1
    have hvl : 0 < v.length := List.length_pos.mpr hv.1
    split
    · rename_i hgt
      constructor
      · intro _
        have hvlt : valB v < base ^ v.length := valB_lt_pow v hv.2.1
        have hune : u ≠ [0] := by
          intro h0
          have hu1 : u.length = 1 := by rw [h0]; rfl
          omega
        have hlow : base ^ (u.length - 1) ≤ valB u := canonM_lower u hu hune
        have hpow : base ^ v.length ≤ base ^ (u.length - 1) :=
          Nat.pow_le_pow_right base_pos (by omega)
        omega
      · intro _
        rfl
    · rename_i hgt
      constructor
      · intro h
        simp at h
      · intro h
        exfalso
        have hult : valB u < base ^ u.length := valB_lt_pow u hu.2.1
        have hvne : v ≠ [0] := by
          intro h0
          have hv1 : v.length = 1 := by rw [h0]; rfl
          omega
        have hlow : base ^ (v.length - 1) ≤ valB v := canonM_lower v hv hvne
        have hpow : base ^ u.length ≤ base ^ (v.length - 1) :=
          Nat.pow_le_pow_right base_pos (by omega)
        omega

theorem magCmp_lt_iff (u v : List Nat) (hu : CanonM u) (hv : CanonM v) :
    magCmp u v = .lt ↔ valB u < valB v := by
  constructor
  · intro h
    have h1 : ¬(valB v < valB u) := by
      intro hlt
      rw [(magCmp_gt_iff u v hu hv).mpr hlt] at h
      simp at h
    have h2 : u ≠ v := by
      intro he
      rw [(magCmp_eq_iff u v).mpr he] at h
      simp at h
    have h3 : valB u ≠ valB v := fun he => h2 (canonM_inj u v hu hv he)
    omega
  · intro h
    cases hm : magCmp u v with
    | lt => rfl
    | eq =>
      have := (magCmp_eq_iff u v).mp hm
      subst this
      omega
    | gt =>
      have := (magCmp_gt_iff u v hu hv).mp hm
      omega

theorem valZ_false (x : BigInt) (h : x.sig = false) : valZ x = (valB x.val : Int) := by
  unfold valZ
  rw [h]
  simp

theorem valZ_true (x : BigInt) (h : x.sig = true) : valZ x = -(valB x.val : Int) := by
  unfold valZ
  rw [h]
  simp

theorem gtB_iff (a b : BigInt) (hca : CanonB a) (hcb : CanonB b) :
    gtB a b = true ↔ valZ b < valZ a := by
  by_cases hs : a.sig = b.sig
  · have hgtb : gtB a b = (match magCmp a.val b.val with
        | .gt => !a.sig
        | .lt => a.sig
        | .eq => false) := by
      unfold gtB
      rw [if_neg (by simp [hs])]
    cases hm : magCmp a.val b.val with
    | gt =>
      have hv := (magCmp_gt_iff a.val b.val hca.1 hcb.1).mp hm
      rw [hgtb, hm]
      cases hsig : a.sig with
      | false =>
        exact iff_of_true (by simp)
          (by rw [valZ_false a hsig, valZ_false b (by rw [← hs, hsig])]
              exact_mod_cast hv)
      | true =>
        refine iff_of_false (by simp) ?_
        rw [valZ_true a hsig, valZ_true b (by rw [← hs, hsig])]
        have h2 : (valB b.val : Int) < valB a.val := by exact_mod_cast hv
        omega
    | lt =>
      have hv := (magCmp_lt_iff a.val b.val hca.1 hcb.1).mp hm
      rw [hgtb, hm]
      cases hsig : a.sig with
      | false =>
        refine iff_of_false (by simp [hsig]) ?_
        rw [valZ_false a hsig, valZ_false b (by rw [← hs, hsig])]
        have h2 : (valB a.val : Int) < valB b.val := by exact_mod_cast hv
        omega
      | true =>
        refine iff_of_true (by simp [hsig]) ?_
        rw [valZ_true a hsig, valZ_true b (by rw [← hs, hsig])]
        have h2 : (valB a.val : Int) < valB b.val := by exact_mod_cast hv
        omega
    | eq =>
      have he := (magCmp_eq_iff a.val b.val).mp hm
      rw [hgtb, hm]
      refine iff_of_false (by simp) ?_
      have heq : valZ a = valZ b := by
        unfold valZ
        rw [hs, he]
      omega
  · have hgtb : gtB a b = (!a.sig && b.sig) := by
      unfold gtB
      rw [if_pos (by simp [hs])]
    cases hsig : a.sig with
    | false =>
      have hbs : b.sig = true := by
        cases hbs0 : b.sig
        · exact absurd (by rw [hsig, hbs0]) hs
        · rfl
      rw [hgtb, hsig, hbs]
      refine iff_of_true (by simp) ?_
      rw [valZ_false a hsig, valZ_true b hbs]
      have hbpos : 0 < valB b.val := canonM_pos b.val hcb.1 (hcb.2 hbs)
      have h1 : (0 : Int) < valB b.val := by exact_mod_cast hbpos
      have h2 : (0 : Int) ≤ valB a.val := by positivity
      omega
    | true =>
      have hbs : b.sig = false := by
        cases hbs0 : b.sig
        · rfl
        · exact absurd (by rw [hsig, hbs0]) hs
      rw [hgtb, hsig, hbs]
      refine iff_of_false (by simp) ?_
      rw [valZ_true a hsig, valZ_false b hbs]
      have hapos : 0 < valB a.val := canonM_pos a.val hca.1 (hca.2 hsig)
      have h1 : (0 : Int) < valB a.val := by exact_mod_cast hapos
      have h2 : (0 : Int) ≤ valB b.val := by positivity
      omega

theorem eqB_iff (a b : BigInt) : eqB a b = true ↔ a = b := by
  unfold eqB
  rw [Bool.and_eq_true, decide_eq_true_iff, decide_eq_true_iff]
  constructor
  · rintro ⟨h1, h2⟩
    cases a
    cases b
    simp at h1 h2
    simp [h1, h2]
  · intro h
    subst h
    exact ⟨rfl, rfl⟩

theorem valZ_inj (a b : BigInt) (hca : CanonB a) (hcb : CanonB b)
    (h : valZ a = valZ b) : a = b := by
  unfold valZ at h
  have hext : a.val = b.val → a.sig = b.sig → a = b := by
    intro h1 h2
    cases a
    cases b
    simp at h1 h2
    simp [h1, h2]
  cases ha : a.sig <;> cases hb : b.sig <;> rw [ha, hb] at h <;> simp at h
  · exact hext (canonM_inj _ _ hca.1 hcb.1 (by exact_mod_cast h)) (by rw [ha, hb])
  · exfalso
    have hbpos : 0 < valB b.val := canonM_pos b.val hcb.1 (hcb.2 hb)
    have h1 : (0 : Int) ≤ valB a.val := by positivity
    have h2 : (0 : Int) < valB b.val := by exact_mod_cast hbpos
    omega
  · exfalso
    have hapos : 0 < valB a.val := canonM_pos a.val hca.1 (hca.2 ha)
    have h1 : (0 : Int) ≤ valB b.val := by positivity
    have h2 : (0 : Int) < valB a.val := by exact_mod_cast hapos
    omega
  · have hval : (valB a.val : Int) = valB b.val := by omega
    exact hext (canonM_inj _ _ hca.1 hcb.1 (by exact_mod_cast hval)) (by rw [ha, hb])

/-- C8: on canonical BigInt values the comparison operators form a
    consistent total order: for every pair exactly one of less-than,
    equality and greater-than holds, and greater-than is transitive,
    across all sign combinations. -/
theorem c8_order_trichotomy_transitive (a b c : BigInt)
    (hca : CanonB a) (hcb : CanonB b) (hcc : CanonB c) :
    ((ltB a b = true ∨ eqB a b = true ∨ gtB a b = true) ∧
      ¬(ltB a b = true ∧ eqB a b = true) ∧
      ¬(ltB a b = true ∧ gtB a b = true) ∧
      ¬(eqB a b = true ∧ gtB a b = true)) ∧
    (gtB a b = true → gtB b c = true → gtB a c = true) := by
  have hab := gtB_iff a b hca hcb
  have hba := gtB_iff b a hcb hca
  have hac := gtB_iff a c hca hcc
  have hbc := gtB_iff b c hcb hcc
  unfold ltB
  constructor
  · refine ⟨?_, ?_, ?_, ?_⟩
    · rcases lt_trichotomy (valZ a) (valZ b) with h | h | h
      · exact Or.inl (hba.mpr h)
      · exact Or.inr (Or.inl ((eqB_iff a b).mpr (valZ_inj a b hca hcb h)))
      · exact Or.inr (Or.inr (hab.mpr h))
    · rintro ⟨h1, h2⟩
      have hlt := hba.mp h1
      have heq := (eqB_iff a b).mp h2
      rw [heq] at hlt
      omega
    · rintro ⟨h1, h2⟩
      have hlt := hba.mp h1
      have hgt := hab.mp h2
      omega
    · rintro ⟨h1, h2⟩
      have heq := (eqB_iff a b).mp h1
      have hgt := hab.mp h2
      rw [heq] at hgt
      omega
  · intro h1 h2
    exact hac.mpr (lt_trans (hbc.mp h2) (hab.mp h1))

/-- C8 witness: the order statement instantiated at the canonical values
    2, 1 and -5. -/
theorem c8_order_trichotomy_transitive_witness :
    ((ltB ⟨[2], false⟩ ⟨[1], false⟩ = true ∨ eqB ⟨[2], false⟩ ⟨[1], false⟩ = true ∨
        gtB ⟨[2], false⟩ ⟨[1], false⟩ = true) ∧
      ¬(ltB ⟨[2], false⟩ ⟨[1], false⟩ = true ∧ eqB ⟨[2], false⟩ ⟨[1], false⟩ = true) ∧
      ¬(ltB ⟨[2], false⟩ ⟨[1], false⟩ = true ∧ gtB ⟨[2], false⟩ ⟨[1], false⟩ = true) ∧
      ¬(eqB ⟨[2], false⟩ ⟨[1], false⟩ = true ∧ gtB ⟨[2], false⟩ ⟨[1], false⟩ = true)) ∧
    (gtB ⟨[2], false⟩ ⟨[1], false⟩ = true → gtB ⟨[1], false⟩ ⟨[5], true⟩ = true →
      gtB ⟨[2], false⟩ ⟨[5], true⟩ = true) :=
  c8_order_trichotomy_transitive ⟨[2], false⟩ ⟨[1], false⟩ ⟨[5], true⟩
    (by decide) (by decide) (by decide)

theorem addTail_length_ge (b : List Nat) : ∀ c, b.length ≤ (addTail b c).length := by
  induction b with
  | nil => intro c; by_cases h : c = 0 <;> simp [addTail, h]
  | cons y t ih =>
    intro c
    simp only [addTail, List.length_cons]
    have := ih ((c + y) / base)
    omega

theorem addTail_length_le (b : List Nat) : ∀ c, (addTail b c).length ≤ b.length + 1 := by
  induction b with
  | nil => intro c; by_cases h : c = 0 <;> simp [addTail, h]
  | cons y t ih =>
    intro c
    simp only [addTail, List.length_cons]
    have := ih ((c + y) / base)
    omega

theorem addC_length_ge (a : List Nat) :
    ∀ b c, max a.length b.length ≤ (addC a b c).length := by
  induction a with
  | nil =>
    intro b c
    simpa [addC] using addTail_length_ge b c
  | cons x t ih =>
    intro b c
    simp only [addC, List.length_cons]
    have := ih b.tail ((c + x + b.headD 0) / base)
    have hbt : b.tail.length = b.length - 1 := List.length_tail b
    omega

theorem addC_length_le (a : List Nat) :
    ∀ b c, (addC a b c).length ≤ max a.length b.length + 1 := by
  induction a with
  | nil =>
    intro b c
    simpa [addC] using addTail_length_le b c
  | cons x t ih =>
    intro b c
    simp only [addC, List.length_cons]
    have := ih b.tail ((c + x + b.headD 0) / base)
    have hbt : b.tail.length = b.length - 1 := List.length_tail b
    omega

theorem addTail_last_of_long (b : List Nat) :
    ∀ c, (addTail b c).length = b.length + 1 →
      ∃ d, (addTail b c).getLast? = some d ∧ d ≠ 0 := by
  induction b with
  | nil =>
    intro c hlen
    by_cases h : c = 0
    · rw [h] at hlen
      simp [addTail] at hlen
    · refine ⟨c, ?_, h⟩
      simp [addTail, h]
  | cons y t ih =>
    intro c hlen
    simp only [addTail, List.length_cons] at hlen ⊢
    have hrec : (addTail t ((c + y) / base)).length = t.length + 1 := by omega
    obtain ⟨d, hd1, hd2⟩ := ih ((c + y) / base) hrec
    refine ⟨d, ?_, hd2⟩
    have hne : addTail t ((c + y) / base) ≠ [] := by
      intro h0
      rw [h0] at hrec
      simp at hrec
    obtain ⟨r, rs, hrr⟩ := List.exists_cons_of_ne_nil hne
    rw [hrr] at hd1 ⊢
    rw [List.getLast?_cons_cons]
    exact hd1

theorem addC_last_of_long (a : List Nat) :
    ∀ b c, (addC a b c).length = max a.length b.length + 1 →
      ∃ d, (addC a b c).getLast? = some d ∧ d ≠ 0 := by
  induction a with
  | nil =>
    intro b c hlen
    simp only [addC, List.length_nil, Nat.max_eq_right (Nat.zero_le _), Nat.zero_max] at hlen ⊢
    exact addTail_last_of_long b c hlen
  | cons x t ih =>
    intro b c hlen
    simp only [addC, List.length_cons] at hlen ⊢
    have hbt : b.tail.length = b.length - 1 := List.length_tail b
    have hge := addC_length_ge t b.tail ((c + x + b.headD 0) / base)
    have hrec : (addC t b.tail ((c + x + b.headD 0) / base)).length =
        max t.length b.tail.length + 1 := by
      have hle := addC_length_le t b.tail ((c + x + b.headD 0) / base)
      omega
    obtain ⟨d, hd1, hd2⟩ := ih b.tail ((c + x + b.headD 0) / base) hrec
    refine ⟨d, ?_, hd2⟩
    have hne : addC t b.tail ((c + x + b.headD 0) / base) ≠ [] := by
      intro h0
      rw [h0] at hrec
      simp at hrec
    obtain ⟨r, rs, hrr⟩ := List.exists_cons_of_ne_nil hne
    rw [hrr] at hd1 ⊢
    rw [List.getLast?_cons_cons]
    exact hd1

theorem getLast_ne_zero_of_ge (l : List Nat) (h0 : l ≠ [])
    (hb : ∀ d ∈ l, d < base) (hl : base ^ (l.length - 1) ≤ valB l) :
    l.getLast? ≠ some 0 := by
  intro hz
  have hsnoc := List.dropLast_append_getLast h0
  have hlast : l.getLast h0 = 0 := by
    rw [List.getLast?_eq_getLast l h0] at hz
    exact Option.some.inj hz
  have hv : valB l = valB l.dropLast := by
    conv_lhs => rw [← hsnoc]
    rw [valB_snoc, hlast]
    ring
  have hdlt : valB l.dropLast < base ^ l.dropLast.length :=
    valB_lt_pow l.dropLast (fun d hd => hb d (List.dropLast_subset l hd))
  rw [List.length_dropLast] at hdlt
  omega

theorem cmpMS_refl_eq (l : List Nat) : cmpMS l l = .eq := cmpMS_self l

theorem gtB_self (a : BigInt) : gtB a a = false := by
  unfold gtB
  rw [if_neg (by simp)]
  have hm : magCmp a.val a.val = .eq := by
    unfold magCmp
    rw [if_pos rfl]
    exact cmpMS_self a.val.reverse
  rw [hm]

theorem subLimbs_self (v : List Nat) : subLimbs v v 0 = List.replicate v.length 0 := by
  have hgen : ∀ u v : List Nat, u = v → subLimbs u v 0 = List.replicate u.length 0 := by
    intro u
    induction u with
    | nil => intro v _; rfl
    | cons x t ih =>
      intro v hv
      subst hv
      unfold subLimbs
      rw [if_neg (by simp)]
      rw [List.length_cons, List.replicate_succ]
      congr 1
      · simp
      · exact ih t rfl
  exact hgen v v rfl

theorem effTrim_replicate_zero (n : Nat) : effTrim (List.replicate n 0) = [] := by
  induction n with
  | zero => rfl
  | succ n ih =>
    rw [List.replicate_succ]
    simp [effTrim, ih]

/-- C7 (counterexample): the compound self-addition on a freshly
    constructed BigInt(0) from the native-integer constructor leaves the
    magnitude empty, so the representation invariants are not
    re-established (the magnitude invariant requires a non-empty limb
    vector). -/
theorem c7_self_aliasing_counterexample :
    plusB (bigIntOfInt 0) (bigIntOfInt 0) = ⟨[], false⟩ ∧ ¬ CanonB ⟨[], false⟩ :=
  ⟨rfl, by decide⟩

/-- C7 (amended): for every BigInt satisfying the representation
    invariants, the self-aliasing compound assignments are correct:
    a += a yields a canonical value equal to twice a, and a -= a yields
    the canonical zero with magnitude the single limb 0 and sign clear. -/
theorem c7_self_aliasing_canonical (a : BigInt) (h : CanonB a) :
    valZ (plusB a a) = 2 * valZ a ∧ CanonB (plusB a a) ∧ subB a a = ⟨[0], false⟩ := by
  obtain ⟨⟨hne, hbnd, hlast⟩, hsig⟩ := h
  have hpl : plusB a a = ⟨addC a.val a.val 0, a.sig⟩ := by
    unfold plusB
    rw [if_neg (by simp)]
  have hval : valB (addC a.val a.val 0) = 2 * valB a.val := by
    rw [addC_val]
    ring
  refine ⟨?_, ?_, ?_⟩
  · rw [hpl]
    cases hs : a.sig with
    | false =>
      rw [valZ_false a hs, valZ_false ⟨addC a.val a.val 0, false⟩ rfl]
      show ((valB (addC a.val a.val 0) : Int)) = 2 * (valB a.val : Int)
      rw [hval]
      push_cast
      ring
    | true =>
      rw [valZ_true a hs, valZ_true ⟨addC a.val a.val 0, true⟩ rfl]
      show -((valB (addC a.val a.val 0) : Int)) = 2 * -(valB a.val : Int)
      rw [hval]
      push_cast
      ring
  · rw [hpl]
    by_cases h0 : a.val = [0]
    · have hz : addC a.val a.val 0 = [0] := by
        rw [h0]
        decide
      have hsf : a.sig = false := by
        cases hsa : a.sig
        · rfl
        · exact absurd h0 (hsig hsa)
      rw [hz, hsf]
      exact ⟨⟨by simp, by simp [base_pos], fun _ => rfl⟩, by simp⟩
    · have hge := addC_length_ge a.val a.val 0
      have hle := addC_length_le a.val a.val 0
      rw [Nat.max_self] at hge hle
      have hlow : base ^ (a.val.length - 1) ≤ valB a.val := canonM_lower a.val ⟨hne, hbnd, hlast⟩ h0
      have hbnd2 : ∀ d ∈ addC a.val a.val 0, d < base := addC_bound a.val a.val 0 hbnd hbnd (by omega)
      have hne2 : addC a.val a.val 0 ≠ [] := by
        intro hnil
        have : (addC a.val a.val 0).length = 0 := by rw [hnil]; rfl
        have hl1 : 0 < a.val.length := List.length_pos.mpr hne
        omega
      have hlast2 : (addC a.val a.val 0).getLast? = some 0 → addC a.val a.val 0 = [0] := by
        intro hz
        exfalso
        by_cases hlong : (addC a.val a.val 0).length = a.val.length + 1
        · obtain ⟨d, hd1, hd2⟩ := addC_last_of_long a.val a.val 0 (by rw [Nat.max_self]; exact hlong)
          rw [hd1] at hz
          exact hd2 (Option.some.inj hz)
        · have hlen : (addC a.val a.val 0).length = a.val.length := by omega
          refine getLast_ne_zero_of_ge (addC a.val a.val 0) hne2 hbnd2 ?_ hz
          rw [hlen, hval]
          omega
      refine ⟨⟨hne2, hbnd2, hlast2⟩, ?_⟩
      intro _
      intro hz
      have hzz : addC a.val a.val 0 = [0] := hz
      have hv0 : valB (addC a.val a.val 0) = 0 := by rw [hzz]; rfl
      rw [hval] at hv0
      have hpos : 0 < valB a.val := canonM_pos a.val ⟨hne, hbnd, hlast⟩ h0
      omega
  · unfold subB
    rw [if_neg (by simp)]
    unfold subSame
    rw [if_neg (by unfold ltB; rw [gtB_self]; simp)]
    have hsub : SubMag a.val a.val = [0] := by
      unfold SubMag
      rw [subLimbs_self]
      unfold trimKeepOne
      rw [if_pos (effTrim_replicate_zero _)]
      have hrep : List.replicate a.val.length 0 ≠ [] := by
        intro hh
        have hlen0 := congrArg List.length hh
        simp at hlen0
        exact hne hlen0
      rw [if_neg hrep]
    rw [hsub]
    unfold trimBig
    have hcond : effTrim (BigInt.mk [0] a.sig).val = [] := rfl
    rw [if_pos hcond]

/-- C7 witness: the amended statement instantiated at the canonical
    value -5. -/
theorem c7_self_aliasing_canonical_witness :
    valZ (plusB ⟨[5], true⟩ ⟨[5], true⟩) = 2 * valZ ⟨[5], true⟩ ∧
      CanonB (plusB ⟨[5], true⟩ ⟨[5], true⟩) ∧
      subB ⟨[5], true⟩ ⟨[5], true⟩ = ⟨[0], false⟩ :=
  c7_self_aliasing_canonical ⟨[5], true⟩ (by decide)

theorem trimBig_valZ (x : BigInt) : valZ (trimBig x) = valZ x := by
  unfold trimBig
  split
  · rename_i hemp
    have h0 : valB x.val = 0 := by rw [← effTrim_val x.val, hemp, valB_nil]
    unfold valZ
    cases hs : x.sig <;> simp [h0, show valB [0] = 0 from rfl]
  · unfold valZ
    cases hs : x.sig <;> simp [hs, effTrim_val]

theorem trimBig_bound (x : BigInt) (h : ∀ d ∈ x.val, d < base) :
    ∀ d ∈ (trimBig x).val, d < base := by
  unfold trimBig
  split
  · intro d hd
    simp at hd
    subst hd
    exact base_pos
  · intro d hd
    exact h d (effTrim_subset x.val d hd)

theorem bmulF_ok (f : Nat) (x y w : BigInt) (hx : ∀ d ∈ x.val, d < base)
    (hy : ∀ d ∈ y.val, d < base) (h : bmulF f x y = .ok w) :
    valZ w = valZ x * valZ y ∧ (∀ d ∈ w.val, d < base) := by
  unfold bmulF at h
  split at h
  · exact absurd h (by simp)
  rename_i mv hm
  simp only [Except.ok.injEq] at h
  subst h
  have hv := MultiplyF_val f _ _ _ hx hy hm
  have hbnd := MultiplyF_bound f _ _ _ hx hy hm
  constructor
  · rw [trimBig_valZ]
    cases hsx : x.sig <;> cases hsy : y.sig
    · rw [valZ_false ⟨mv, Bool.xor false false⟩ rfl, valZ_false x hsx, valZ_false y hsy]
      rw [hv]
      push_cast
      ring
    · rw [valZ_true ⟨mv, Bool.xor false true⟩ rfl, valZ_false x hsx, valZ_true y hsy]
      rw [hv]
      push_cast
      ring
    · rw [valZ_true ⟨mv, Bool.xor true false⟩ rfl, valZ_true x hsx, valZ_false y hsy]
      rw [hv]
      push_cast
      ring
    · rw [valZ_false ⟨mv, Bool.xor true true⟩ rfl, valZ_true x hsx, valZ_true y hsy]
      rw [hv]
      push_cast
      ring
  · exact trimBig_bound ⟨mv, Bool.xor x.sig y.sig⟩ hbnd

theorem bitLenF_lt (f : Nat) : ∀ t, t ≤ f → t < 2 ^ bitLenF f t := by
  induction f with
  | zero =>
    intro t ht
    have : t = 0 := by omega
    subst this
    simp [bitLenF]
  | succ f ih =>
    intro t ht
    unfold bitLenF
    split
    · omega
    · rename_i ht0
      have h2 : t / 2 ≤ f := by omega
      have := ih (t / 2) h2
      have hp : 2 ^ (bitLenF f (t / 2) + 1) = 2 * 2 ^ bitLenF f (t / 2) := by
        rw [pow_succ]
        ring
      omega

theorem testBit_div (n k : Nat) :
    n / 2 ^ k = 2 * (n / 2 ^ (k + 1)) + (if n.testBit k then 1 else 0) := by
  have h1 : n / 2 ^ (k + 1) = n / 2 ^ k / 2 := by
    rw [Nat.div_div_eq_div_mul, pow_succ]
  have h2 := Nat.testBit_to_div_mod (x := n) (i := k)
  by_cases hb : n.testBit k
  · rw [if_pos hb]
    rw [hb] at h2
    have h3 : n / 2 ^ k % 2 = 1 := by
      have := of_decide_eq_true h2.symm
      exact this
    omega
  · rw [if_neg hb]
    have h3 : ¬(n / 2 ^ k % 2 = 1) := by
      intro hc
      exact hb (by rw [h2]; exact decide_eq_true hc)
    omega

theorem powLoop_val (f : Nat) (x : BigInt) (n : Nat) (hx : ∀ d ∈ x.val, d < base) :
    ∀ k res w, (∀ d ∈ res.val, d < base) →
      valZ res = valZ x ^ (n / 2 ^ (k + 1)) →
      powLoopF f x n k res = .ok w → valZ w = valZ x ^ n := by
  intro k
  induction k with
  | zero =>
    intro res w hb hv h
    unfold powLoopF at h
    split at h
    · exact absurd h (by simp)
    rename_i r2 hm2
    obtain ⟨hr2v, hr2b⟩ := bmulF_ok f res res _ hb hb hm2
    have hd := testBit_div n 0
    split at h
    · rename_i hbit
      obtain ⟨hwv, hwb⟩ := bmulF_ok f r2 x _ hr2b hx h
      rw [hwv, hr2v, hv, ← pow_add, ← pow_succ]
      congr 1
      rw [if_pos hbit] at hd
      have hself : n / 2 ^ 0 = n := by simp
      omega
    · simp only [Except.ok.injEq] at h
      subst h
      rw [hr2v, hv, ← pow_add]
      congr 1
      rw [if_neg (by rename_i hbit; exact hbit)] at hd
      have hself : n / 2 ^ 0 = n := by simp
      omega
  | succ k ih =>
    intro res w hb hv h
    unfold powLoopF at h
    split at h
    · exact absurd h (by simp)
    rename_i r2 hm2
    obtain ⟨hr2v, hr2b⟩ := bmulF_ok f res res _ hb hb hm2
    split at h
    · exact absurd h (by simp)
    rename_i r3 hm3
    have hd := testBit_div n (k + 1)
    by_cases hbit : n.testBit (k + 1)
    · rw [if_pos hbit] at hm3 hd
      obtain ⟨hr3v, hr3b⟩ := bmulF_ok f r2 x _ hr2b hx hm3
      refine ih r3 w hr3b ?_ h
      rw [hr3v, hr2v, hv, ← pow_add, ← pow_succ]
      congr 1
      omega
    · rw [if_neg hbit] at hm3 hd
      simp only [Except.ok.injEq] at hm3
      subst hm3
      refine ih r2 w hr2b ?_ h
      rw [hr2v, hv, ← pow_add]
      congr 1
      omega

theorem powIntF_val (f : Nat) (x : BigInt) (n : Nat) (w : BigInt)
    (hx : ∀ d ∈ x.val, d < base) (h : powIntF f x n = .ok w) :
    valZ w = valZ x ^ n := by
  unfold powIntF at h
  refine powLoop_val f x n hx (bitLenF n n) ⟨[1], false⟩ w (by decide) ?_ h
  have hlt : n < 2 ^ bitLenF n n := bitLenF_lt n n le_rfl
  have hz : n / 2 ^ (bitLenF n n + 1) = 0 :=
    Nat.div_eq_of_lt (lt_of_lt_of_le hlt (Nat.pow_le_pow_right (by omega) (by omega)))
  rw [hz, pow_zero]
  decide

/-- C9 (amended): whenever the whole binary-exponentiation computation
    completes without the multiply kernel's out-of-range access, PowInt
    returns exactly x to the n-th power as a signed value; and
    PowInt(x, 0) is the BigInt 1 for every x, including zero,
    unconditionally (given any nonzero fuel for the single 1*1 multiply). -/
theorem c9_powint_correct :
    (∀ (f : Nat) (x : BigInt) (n : Nat) (w : BigInt), (∀ d ∈ x.val, d < base) →
        powIntF f x n = .ok w → valZ w = valZ x ^ n) ∧
      (∀ (x : BigInt) (f : Nat), powIntF (f + 1) x 0 = .ok ⟨[1], false⟩) :=
  ⟨fun f x n w hx h => powIntF_val f x n w hx h, fun _ _ => rfl⟩

/-- C9 witness: the amended statement instantiated at x = 2, n = 3, with
    result 8, plus the zero-exponent clause at x = -5. -/
theorem c9_powint_correct_witness :
    valZ ⟨[8], false⟩ = valZ ⟨[2], false⟩ ^ 3 ∧
      powIntF 1 ⟨[5], true⟩ 0 = .ok ⟨[1], false⟩ :=
  ⟨c9_powint_correct.1 10 ⟨[2], false⟩ 3 ⟨[8], false⟩ (by decide) rfl,
    c9_powint_correct.2 ⟨[5], true⟩ 0⟩

theorem countDigitsF_eq (f : Nat) : ∀ t, t ≤ f → countDigitsF f t = (Nat.digits 10 t).length := by
  induction f with
  | zero =>
    intro t ht
    have : t = 0 := by omega
    subst this
    simp [countDigitsF]
  | succ f ih =>
    intro t ht
    unfold countDigitsF
    split
    · rename_i ht0
      subst ht0
      simp
    · rename_i ht0
      have hlt : t / 10 < t := Nat.div_lt_self (by omega) (by omega)
      rw [ih (t / 10) (by omega)]
      rw [Nat.digits_def' (by norm_num : (1:Nat) < 10) (by omega : 0 < t)]
      simp

theorem base_eq_pow : base = 10 ^ 9 := by decide

/-- C10: for a canonical magnitude, DigCount returns the decimal digit
    count of the denoted absolute value — nine digits for every limb
    below the most-significant one plus the digit count of that limb —
    and for the canonical zero magnitude it returns 0, not 1. -/
theorem c10_digcount_correct (x : BigInt) (h : CanonM x.val) :
    (x.val = [0] → digCountB x = 0) ∧
      (x.val ≠ [0] → digCountB x = (Nat.digits 10 (valB x.val)).length) := by
  obtain ⟨h0, hb, hlast⟩ := h
  constructor
  · intro hz
    unfold digCountB
    rw [hz]
    rfl
  · intro hne
    have hsnoc := List.dropLast_append_getLast h0
    have hdmem : x.val.getLast h0 ∈ x.val := List.getLast_mem h0
    have hdlt : x.val.getLast h0 < base := hb _ hdmem
    have hdne : x.val.getLast h0 ≠ 0 := by
      intro hz
      exact hne (hlast (by rw [List.getLast?_eq_getLast _ h0, hz]))
    have hdlastD : x.val.getLastD 0 = x.val.getLast h0 := by
      rw [List.getLastD_eq_getLast?, List.getLast?_eq_getLast _ h0]
      rfl
    have hv1 : valB x.val = valB x.val.dropLast +
        base ^ (x.val.length - 1) * x.val.getLast h0 := by
      conv_lhs => rw [← hsnoc]
      rw [valB_snoc, List.length_dropLast]
    have hvlt : valB x.val.dropLast < base ^ (x.val.length - 1) := by
      have := valB_lt_pow x.val.dropLast (fun d hd => hb d (List.dropLast_subset x.val hd))
      rwa [List.length_dropLast] at this
    have hvne : valB x.val ≠ 0 := by
      have := canonM_pos x.val ⟨h0, hb, hlast⟩ hne
      omega
    have hlen := Nat.digits_len 10 (valB x.val) (by norm_num) hvne
    have hlend := Nat.digits_len 10 (x.val.getLast h0) (by norm_num) hdne
    unfold digCountB
    rw [hdlastD, countDigitsF_eq _ _ le_rfl, hlen, hlend]
    have hlog : Nat.log 10 (valB x.val) =
        9 * (x.val.length - 1) + Nat.log 10 (x.val.getLast h0) := by
      refine Nat.log_eq_of_pow_le_of_lt_pow ?_ ?_
      · rw [pow_add, pow_mul, ← base_eq_pow]
        have hp1 : 10 ^ Nat.log 10 (x.val.getLast h0) ≤ x.val.getLast h0 :=
          Nat.pow_log_le_self 10 hdne
        have hp2 : base ^ (x.val.length - 1) * (10 ^ Nat.log 10 (x.val.getLast h0)) ≤
            base ^ (x.val.length - 1) * x.val.getLast h0 :=
          Nat.mul_le_mul_left _ hp1
        omega
      · rw [add_assoc, pow_add, pow_mul, ← base_eq_pow]
        have hp1 : x.val.getLast h0 < 10 ^ (Nat.log 10 (x.val.getLast h0) + 1) :=
          Nat.lt_pow_succ_log_self (by norm_num) _
        have hp2 : base ^ (x.val.length - 1) * (x.val.getLast h0 + 1) ≤
            base ^ (x.val.length - 1) * 10 ^ (Nat.log 10 (x.val.getLast h0) + 1) :=
          Nat.mul_le_mul_left _ (by omega)
        have hp3 : base ^ (x.val.length - 1) * (x.val.getLast h0 + 1) =
            base ^ (x.val.length - 1) * x.val.getLast h0 + base ^ (x.val.length - 1) := by
          ring
        omega
    rw [hlog]
    ring

/-- C10 witness: the statement instantiated at the canonical two-limb
    magnitude of 12123456789 (11 decimal digits) with positive sign. -/
theorem c10_digcount_correct_witness :
    ((⟨[123456789, 12], false⟩ : BigInt).val = [0] →
        digCountB ⟨[123456789, 12], false⟩ = 0) ∧
      ((⟨[123456789, 12], false⟩ : BigInt).val ≠ [0] →
        digCountB ⟨[123456789, 12], false⟩ =
          (Nat.digits 10 (valB (⟨[123456789, 12], false⟩ : BigInt).val)).length) :=
  c10_digcount_correct ⟨[123456789, 12], false⟩ (by decide)

